import Mathlib

/-!
Verification of the "describe" core of terraform-provider-git.

The repository vendors a git-describe/semver library under pkg/git (absent
from the source snapshot; only its README, its caller
internal/provider/git_repository_data_source.go, and tests are present).
Definitions for the Tag Resolver (Describe) and the Version Composer
(GenerateVersion) are therefore modelled from the specification; the data
source Read flow is embedded from git_repository_data_source.go.
-/

namespace GitSemver

/-- Convert a list of decimal digit characters to the natural number they
denote (most significant first). -/
def digitsToNat (ds : List Char) : Nat :=
  ds.foldl (fun n c => 10 * n + (c.toNat - 48)) 0

/-- A parsed semantic-version base: optional leading letter v, the three
numeric components, and the verbatim remainder of the string (empty, or a
pre-release part introduced by a dash, or build metadata introduced by a
plus sign). -/
structure SemVer where
  hasV : Bool
  major : Nat
  minor : Nat
  patch : Nat
  rest : List Char
deriving DecidableEq, Repr

/-- Split off the longest run of decimal digits from the front of a
character list. -/
def takeDigits : List Char → List Char × List Char
  | [] => ([], [])
  | c :: cs =>
    if c.isDigit then
      let p := takeDigits cs
      (c :: p.1, p.2)
    else ([], c :: cs)

/-- Read a non-empty run of digits from the front, returning its value and
the remainder. -/
def expectNat (cs : List Char) : Option (Nat × List Char) :=
  match takeDigits cs with
  | ([], _) => none
  | (d, r) => some (digitsToNat d, r)

/-- Consume one dot separator. -/
def expectDot : List Char → Option (List Char)
  | '.' :: r => some r
  | _ => none

/-- Accept the remainder after the three numeric components: nothing, a
dash-introduced pre-release part, or a plus-introduced build-metadata
part, kept verbatim. -/
def checkRest (n1 n2 n3 : Nat) : List Char → Option SemVer
  | [] => some ⟨false, n1, n2, n3, []⟩
  | '-' :: r => some ⟨false, n1, n2, n3, '-' :: r⟩
  | '+' :: r => some ⟨false, n1, n2, n3, '+' :: r⟩
  | _ => none

/-- Modelled from the spec: the semantic-version base grammar used by the
Version Composer (pkg/git is absent from the source snapshot) without the
optional leading v: MAJOR.MINOR.PATCH as dot-separated non-negative
integers, followed by nothing, or by a dash-introduced pre-release part,
or by a plus-introduced build-metadata part, kept verbatim. -/
def parseCore (cs : List Char) : Option SemVer :=
  match expectNat cs with
  | none => none
  | some (n1, r1) =>
    match expectDot r1 with
    | none => none
    | some r2 =>
      match expectNat r2 with
      | none => none
      | some (n2, r3) =>
        match expectDot r3 with
        | none => none
        | some r4 =>
          match expectNat r4 with
          | none => none
          | some (n3, r5) => checkRest n1 n2 n3 r5

/-- Modelled from the spec: the full tag-name grammar of the Version
Composer (pkg/git is absent from the source snapshot): an optional leading
letter v, then `parseCore`. -/
def parseSemVerChars (cs : List Char) : Option SemVer :=
  if cs.head? = some 'v' then (parseCore cs.tail).map (fun p => { p with hasV := true })
  else parseCore cs

/-- String-level entry point of the tag-name parser. -/
def parseSemVer (s : String) : Option SemVer :=
  parseSemVerChars s.toList

/-- The short form of a commit hash: its first seven characters. -/
def shortHash (h : String) : String :=
  h.take 7

/-- Error taxonomy of the Version Composer, from the spec. -/
inductive VersionError
  | versionFormat
  | invalidOptions
deriving DecidableEq, Repr

/-- Caller configuration of the Version Composer; the empty string stands
for an unsupplied fallback tag name. -/
structure GenerateVersionOptions where
  fallbackTagName : String
deriving DecidableEq, Repr

/-- Modelled from the spec: GenerateVersion of pkg/git (absent from the
source snapshot). A present tag name must parse as a semantic-version
base; at distance zero it is returned unchanged, otherwise the suffix
dash distance dot g shorthash is appended. An absent tag name substitutes
the fallback tag (default v0.0.0) and always appends the suffix; a
fallback that does not parse is an options error. The timestamp argument
is accepted for forward compatibility and never used. -/
def generateVersion (tagName : Option String) (distance : Nat) (headHash : String)
    (now : Nat) (opts : GenerateVersionOptions) : Except VersionError String :=
  match tagName with
  | some t =>
    match parseSemVer t with
    | some _ =>
      if distance = 0 then .ok t
      else .ok (t ++ "-" ++ toString distance ++ ".g" ++ shortHash headHash)
    | none => .error .versionFormat
  | none =>
    let fb := if opts.fallbackTagName = "" then "v0.0.0" else opts.fallbackTagName
    match parseSemVer fb with
    | some _ => .ok (fb ++ "-" ++ toString distance ++ ".g" ++ shortHash headHash)
    | none => .error .invalidOptions

example : parseSemVer "v1.0.0" = some ⟨true, 1, 0, 0, []⟩ := by decide
example : parseSemVer "release-one" = none := by decide
example : generateVersion (some "v1.0.0") 1 "21e4385abcdef" 0 ⟨""⟩ = .ok "v1.0.0-1.g21e4385" :=
  rfl

/-- The numeric key of a tag name under semantic-version comparison, when
the name parses. -/
def semKey (s : String) : Option (Nat × Nat × Nat) :=
  (parseSemVer s).map (fun p => (p.major, p.minor, p.patch))

/-- Strict lexicographic comparison of the three numeric components. -/
def keyLtB : Nat × Nat × Nat → Nat × Nat × Nat → Bool
  | (a1, a2, a3), (b1, b2, b3) =>
    decide (a1 < b1 ∨ (a1 = b1 ∧ (a2 < b2 ∨ (a2 = b2 ∧ a3 < b3))))

/-- Modelled from the spec: the total precedence order on tag names used
when several tags target one commit (pkg/git is absent from the source
snapshot): a name that parses as a semantic version beats one that does
not; two parsed names compare by their numeric components, ties and two
unparsed names fall back to lexicographic order on the full name. -/
def tagLE (a b : String) : Bool :=
  match semKey a, semKey b with
  | none, none => decide (a ≤ b)
  | none, some _ => true
  | some _, none => false
  | some ka, some kb => if ka = kb then decide (a ≤ b) else keyLtB ka kb

/-- Fold step picking the greater tag name under `tagLE`. -/
def maxTag (acc : Option String) (n : String) : Option String :=
  match acc with
  | none => some n
  | some m => if tagLE m n then some n else some m

/-- Modelled from the spec: the tag selected for a commit, the maximum
under `tagLE` of the names of all tags targeting it. -/
def selectTag (tags : List (String × String)) (c : String) : Option String :=
  ((tags.filter (fun p => p.2 == c)).map Prod.fst).foldl maxTag none

/-- A repository snapshot as consumed by the Tag Resolver: the resolved
HEAD commit identifier (none when HEAD cannot be resolved), the commit
arena giving each commit its parent identifiers (a missing entry is a
failing parent lookup), and the tag enumeration as name-target pairs
(none when it cannot be read). -/
structure Repo where
  headId : Option String
  commits : List (String × List String)
  tagsList : Option (List (String × String))
deriving DecidableEq, Repr

/-- Error taxonomy of the Tag Resolver, from the spec: the three kinds of
repository access failure. -/
inductive GitError
  | headUnresolved
  | tagsUnreadable
  | parentLookup
deriving DecidableEq, Repr

/-- Parent lookup in the commit arena. -/
def lookupParents (cs : List (String × List String)) (id : String) : Option (List String) :=
  (cs.find? (fun p => p.1 == id)).map Prod.snd

/-- Look up the parents of every commit of one breadth-first frontier,
failing when any lookup fails. -/
def expandAll (cs : List (String × List String)) : List String → Option (List String)
  | [] => some []
  | c :: rest =>
    match lookupParents cs c, expandAll cs rest with
    | some ps, some acc => some (ps ++ acc)
    | _, _ => none

/-- The Tag Resolver output. -/
structure DescribeResult where
  tagName : Option String
  distance : Nat
  headHash : String
deriving DecidableEq, Repr

/-- Modelled from the spec: one breadth-first traversal (pkg/git is absent
from the source snapshot). `visited` holds the commits of the levels
already expanded, `frontier` the commits at distance `d` from HEAD. The
first tagged commit found in a frontier stops the walk with its tag and
distance; an exhausted graph yields no tag and the count of visited
commits. The fuel only forces termination and is chosen large enough
never to run out. -/
def bfsLoop (cs : List (String × List String)) (tagOf : String → Option String) :
    Nat → List String → List String → Nat → Except GitError (Option String × Nat)
  | 0, visited, _, _ => .ok (none, visited.length)
  | fuel + 1, visited, frontier, d =>
    match frontier.find? (fun c => (tagOf c).isSome) with
    | some c => .ok (tagOf c, d)
    | none =>
      match expandAll cs frontier with
      | none => .error .parentLookup
      | some ps =>
        let visited' := visited ++ frontier
        let next := (ps.filter (fun p => !(visited'.contains p))).dedup
        if next.isEmpty then .ok (none, visited'.length)
        else bfsLoop cs tagOf fuel visited' next (d + 1)

/-- Modelled from the spec: Describe of pkg/git (absent from the source
snapshot): resolve HEAD, read the tag enumeration, and run the
breadth-first nearest-tag search from HEAD. -/
def describe (r : Repo) : Except GitError DescribeResult :=
  match r.headId with
  | none => .error .headUnresolved
  | some h =>
    match r.tagsList with
    | none => .error .tagsUnreadable
    | some tags =>
      match bfsLoop r.commits (selectTag tags) (r.commits.length + 2) [] [h] 0 with
      | .error e => .error e
      | .ok (tn, d) => .ok ⟨tn, d, h⟩

example :
    describe ⟨some "h", [("h", ["a"]), ("a", ["t"]), ("t", [])], some [("v1.0.0", "t")]⟩ =
      .ok ⟨some "v1.0.0", 2, "h"⟩ := rfl

example :
    describe ⟨some "h", [("h", ["a", "b"]), ("a", ["t"]), ("b", ["b2"]), ("b2", ["t"]),
        ("t", [])], some [("v1.0.0", "t")]⟩ =
      .ok ⟨some "v1.0.0", 2, "h"⟩ := rfl

example :
    describe ⟨some "h", [("h", ["a"]), ("a", [])], some []⟩ = .ok ⟨none, 2, "h"⟩ := rfl

example :
    describe ⟨some "h", [], some []⟩ = .error .parentLookup := rfl

/-- The resolved HEAD reference as seen by the data source (repo.Head()
in git_repository_data_source.go): its name and reference kind. -/
structure HeadRef where
  name : String
  isTag : Bool
  isBranch : Bool
deriving DecidableEq, Repr

/-- The environment a single Read invocation observes: whether PlainOpen
succeeds, the repository snapshot consumed by Describe, the HEAD
reference (none when repo.Head() fails), the wall-clock instant passed to
GenerateVersion, and the worktree accessors. -/
structure ReadEnv where
  openOk : Bool
  repo : Repo
  headRef : Option HeadRef
  now : Nat
  worktreeOk : Bool
  statusOk : Bool
  isClean : Bool
deriving DecidableEq, Repr

/-- The configuration of the git_repository data source: the repository
path and the optional fallback tag (empty when unset). -/
structure ReadConfig where
  path : String
  semverFallbackTag : String
deriving DecidableEq, Repr

/-- The diagnostics a failed Read reports, one per early return of
GitRepository.Read in git_repository_data_source.go. -/
inductive ReadError
  | gitOpen
  | gitHead
  | gitDescribe (e : GitError)
  | generateVersionFailed (e : VersionError)
  | worktree
  | worktreeStatus
deriving DecidableEq, Repr

/-- The state a successful Read sets, from GitRepositoryModel. -/
structure ReadData where
  id : String
  path : String
  summary : String
  branch : String
  semver : String
  isDirty : Bool
  isTag : Bool
  isBranch : Bool
deriving DecidableEq, Repr

/-- GitRepository.Read of git_repository_data_source.go: default the
fallback tag to v0.0.0, open the repository, resolve HEAD, run Describe
then GenerateVersion, read the worktree status, and render the summary:
tag dash distance dash g shorthash when a non-empty tag name was found,
the short hash alone otherwise, with dash dirty appended when the
worktree is not clean. Any step failing aborts the whole query with its
diagnostic. -/
def read (cfg : ReadConfig) (env : ReadEnv) : Except ReadError ReadData :=
  let fallback := if cfg.semverFallbackTag = "" then "v0.0.0" else cfg.semverFallbackTag
  if !env.openOk then .error .gitOpen
  else
    match env.headRef with
    | none => .error .gitHead
    | some hr =>
      match describe env.repo with
      | .error e => .error (.gitDescribe e)
      | .ok res =>
        match generateVersion res.tagName res.distance res.headHash env.now ⟨fallback⟩ with
        | .error e => .error (.generateVersionFailed e)
        | .ok ver =>
          if !env.worktreeOk then .error .worktree
          else if !env.statusOk then .error .worktreeStatus
          else
            let dirty := !env.isClean
            let base :=
              match res.tagName with
              | some t =>
                if t ≠ "" then
                  t ++ "-" ++ toString res.distance ++ "-g" ++ res.headHash.take 7
                else res.headHash.take 7
              | none => res.headHash.take 7
            let summary := if dirty then base ++ "-dirty" else base
            .ok { id := cfg.path, path := cfg.path, summary := summary, branch := hr.name,
                  semver := ver, isDirty := dirty, isTag := hr.isTag, isBranch := hr.isBranch }

/-- The two strict-but-true grammars used to settle the well-formedness
claim: `semverStrict` is the output grammar exactly as the claim words it
(dot-separated integers, no leading letter), `semverLoose` additionally
admits the optional leading letter v that parseable tag names may carry. -/
def semverStrict (s : String) : Bool :=
  (parseCore s.toList).isSome

/-- The output grammar amended with an optional leading letter v. -/
def semverLoose (s : String) : Bool :=
  (parseSemVerChars s.toList).isSome

example :
    read ⟨"p", ""⟩
      ⟨true, ⟨some "21e4385abcd", [("21e4385abcd", ["t0"]), ("t0", [])],
        some [("v1.0.0", "t0")]⟩, some ⟨"refs/heads/main", false, true⟩, 5, true, true, true⟩ =
      .ok ⟨"p", "p", "v1.0.0-1-g21e4385", "refs/heads/main", "v1.0.0-1.g21e4385",
        false, false, true⟩ := rfl

/-- A parent-edge path of length n from a to b in the commit arena: the
mathematical reachability yardstick the breadth-first traversal is
measured against. -/
inductive ReachN (cs : List (String × List String)) : String → String → Nat → Prop
  | refl (a : String) : ReachN cs a a 0
  | step {a b c : String} {ps : List String} {n : Nat} :
      lookupParents cs a = some ps → b ∈ ps → ReachN cs b c n → ReachN cs a c (n + 1)

/-- The breadth-first loop invariant at the start of a level: `visited`
holds exactly the commits whose shortest distance from HEAD is below `d`,
`frontier` exactly those at shortest distance `d`, no commit closer than
`d` is tagged, both lists are duplicate-free, and every visited commit
had a successful parent lookup. -/
structure BfsInv (cs : List (String × List String)) (tagOf : String → Option String)
    (head : String) (visited frontier : List String) (d : Nat) : Prop where
  visMem : ∀ c, c ∈ visited ↔ ∃ n, n < d ∧ ReachN cs head c n
  frMem : ∀ c, c ∈ frontier ↔ (ReachN cs head c d ∧ ∀ n, n < d → ¬ ReachN cs head c n)
  visNodup : visited.Nodup
  frNodup : frontier.Nodup
  noTag : ∀ c n, n < d → ReachN cs head c n → tagOf c = none
  visKeys : ∀ c ∈ visited, (lookupParents cs c).isSome = true
  frNonempty : frontier ≠ []

/-- What a completed breadth-first loop guarantees: a found tag lies on a
shortest path among tagged commits at the reported distance; a missing
tag means no reachable commit is tagged and the reported distance counts
the reachable commits exactly once. -/
def bfsOutcome (cs : List (String × List String)) (tagOf : String → Option String)
    (head : String) : Except GitError (Option String × Nat) → Prop
  | .error _ => True
  | .ok (some t, dist) =>
    (∃ c, ReachN cs head c dist ∧ tagOf c = some t) ∧
      (∀ c n, ReachN cs head c n → (tagOf c).isSome = true → dist ≤ n)
  | .ok (none, dist) =>
    (∀ c n, ReachN cs head c n → tagOf c = none) ∧
      (∃ l : List String, l.Nodup ∧ (∀ c, c ∈ l ↔ ∃ n, ReachN cs head c n) ∧
        dist = l.length)

/-! ### The tag precedence order is a total order -/

theorem keyLtB_total (ka kb : Nat × Nat × Nat) (h : ka ≠ kb) :
    keyLtB ka kb = true ∨ keyLtB kb ka = true := by
  obtain ⟨a1, a2, a3⟩ := ka
  obtain ⟨b1, b2, b3⟩ := kb
  simp only [keyLtB, decide_eq_true_eq]
  simp only [ne_eq, Prod.mk.injEq, not_and] at h
  omega

theorem keyLtB_asymm (ka kb : Nat × Nat × Nat) (h1 : keyLtB ka kb = true)
    (h2 : keyLtB kb ka = true) : False := by
  obtain ⟨a1, a2, a3⟩ := ka
  obtain ⟨b1, b2, b3⟩ := kb
  simp only [keyLtB, decide_eq_true_eq] at h1 h2
  omega

theorem keyLtB_trans (ka kb kc : Nat × Nat × Nat) (h1 : keyLtB ka kb = true)
    (h2 : keyLtB kb kc = true) : keyLtB ka kc = true := by
  obtain ⟨a1, a2, a3⟩ := ka
  obtain ⟨b1, b2, b3⟩ := kb
  obtain ⟨c1, c2, c3⟩ := kc
  simp only [keyLtB, decide_eq_true_eq] at h1 h2 ⊢
  omega

theorem tagLE_refl (a : String) : tagLE a a = true := by
  cases h : semKey a <;> simp [tagLE, h]

theorem tagLE_total (a b : String) : tagLE a b = true ∨ tagLE b a = true := by
  cases ha : semKey a with
  | none =>
    cases hb : semKey b with
    | none =>
      simp only [tagLE, ha, hb, decide_eq_true_eq]
      exact le_total a b
    | some kb => simp [tagLE, ha, hb]
  | some ka =>
    cases hb : semKey b with
    | none => simp [tagLE, ha, hb]
    | some kb =>
      by_cases hk : ka = kb
      · subst hk
        simp only [tagLE, ha, hb, eq_self_iff_true, if_true, decide_eq_true_eq]
        exact le_total a b
      · simp only [tagLE, ha, hb, if_neg hk, if_neg (Ne.symm hk)]
        exact keyLtB_total ka kb hk

theorem tagLE_antisymm (a b : String) (h1 : tagLE a b = true) (h2 : tagLE b a = true) :
    a = b := by
  cases ha : semKey a with
  | none =>
    cases hb : semKey b with
    | none =>
      simp only [tagLE, ha, hb, decide_eq_true_eq] at h1 h2
      exact le_antisymm h1 h2
    | some kb => simp [tagLE, ha, hb] at h2
  | some ka =>
    cases hb : semKey b with
    | none => simp [tagLE, ha, hb] at h1
    | some kb =>
      by_cases hk : ka = kb
      · subst hk
        simp only [tagLE, ha, hb, eq_self_iff_true, if_true, decide_eq_true_eq] at h1 h2
        exact le_antisymm h1 h2
      · simp only [tagLE, ha, hb, if_neg hk, if_neg (Ne.symm hk)] at h1 h2
        exact absurd h1 (fun h1x => keyLtB_asymm ka kb h1x h2)

theorem tagLE_trans (a b c : String) (h1 : tagLE a b = true) (h2 : tagLE b c = true) :
    tagLE a c = true := by
  cases ha : semKey a with
  | none =>
    cases hc : semKey c with
    | some kc => simp [tagLE, ha, hc]
    | none =>
      cases hb : semKey b with
      | some kb => simp [tagLE, hb, hc] at h2
      | none =>
        simp only [tagLE, ha, hb, hc, decide_eq_true_eq] at h1 h2 ⊢
        exact le_trans h1 h2
  | some ka =>
    cases hb : semKey b with
    | none => simp [tagLE, ha, hb] at h1
    | some kb =>
      cases hc : semKey c with
      | none => simp [tagLE, hb, hc] at h2
      | some kc =>
        by_cases hab : ka = kb
        · subst hab
          by_cases hbc : ka = kc
          · subst hbc
            simp only [tagLE, ha, hb, hc, eq_self_iff_true, if_true, decide_eq_true_eq] at h1 h2 ⊢
            exact le_trans h1 h2
          · simp only [tagLE, ha, hb, hc, if_neg hbc] at h2 ⊢
            exact h2
        · simp only [tagLE, ha, hb, if_neg hab] at h1
          by_cases hbc : kb = kc
          · subst hbc
            simp only [tagLE, ha, hc, if_neg hab]
            exact h1
          · simp only [tagLE, hb, hc, if_neg hbc] at h2
            have hac : ka ≠ kc := by
              intro he
              subst he
              exact keyLtB_asymm ka kb h1 h2
            simp only [tagLE, ha, hc, if_neg hac]
            exact keyLtB_trans ka kb kc h1 h2

/-! ### Properties of the per-commit tag selection -/

theorem tagLE_of_not (x y : String) (h : tagLE x y = false) : tagLE y x = true := by
  rcases tagLE_total x y with h2 | h2
  · simp [h] at h2
  · exact h2

theorem foldl_maxTag_some (l : List String) (m : String) :
    ∃ n, l.foldl maxTag (some m) = some n := by
  induction l generalizing m with
  | nil => exact ⟨m, rfl⟩
  | cons a l ih =>
    simp only [List.foldl_cons, maxTag]
    cases hma : tagLE m a
    · simpa [hma] using ih m
    · simpa [hma] using ih a

theorem foldl_maxTag_seed (l : List String) :
    ∀ m n : String, l.foldl maxTag (some m) = some n → tagLE m n = true := by
  induction l with
  | nil =>
    intro m n h
    cases h
    exact tagLE_refl m
  | cons a l ih =>
    intro m n h
    simp only [List.foldl_cons, maxTag] at h
    cases hma : tagLE m a
    · rw [hma] at h
      simp only [Bool.false_eq_true, if_false] at h
      exact ih m n h
    · rw [hma] at h
      simp only [if_true] at h
      exact tagLE_trans m a n hma (ih a n h)

theorem foldl_maxTag_mem (l : List String) :
    ∀ (acc : Option String) (n : String), l.foldl maxTag acc = some n →
      n ∈ l ∨ acc = some n := by
  induction l with
  | nil =>
    intro acc n h
    exact Or.inr h
  | cons a l ih =>
    intro acc n h
    simp only [List.foldl_cons] at h
    rcases ih (maxTag acc a) n h with hl | he
    · exact Or.inl (List.mem_cons_of_mem a hl)
    · cases acc with
      | none =>
        cases he
        exact Or.inl (List.mem_cons_self _ _)
      | some m =>
        simp only [maxTag] at he
        cases hma : tagLE m a
        · rw [hma] at he
          simp only [Bool.false_eq_true, if_false] at he
          exact Or.inr he
        · rw [hma] at he
          simp only [if_true] at he
          cases he
          exact Or.inl (List.mem_cons_self _ _)

theorem foldl_maxTag_dom (l : List String) :
    ∀ (acc : Option String) (n : String), l.foldl maxTag acc = some n →
      ∀ m ∈ l, tagLE m n = true := by
  induction l with
  | nil =>
    intro acc n _ m hm
    cases hm
  | cons a l ih =>
    intro acc n h m hm
    simp only [List.foldl_cons] at h
    rcases List.mem_cons.mp hm with rfl | hm2
    · have h0 : ∃ m0, maxTag acc m = some m0 ∧ tagLE m m0 = true := by
        cases acc with
        | none => exact ⟨m, rfl, tagLE_refl m⟩
        | some mm =>
          cases hmm : tagLE mm m
          · exact ⟨mm, by simp [maxTag, hmm], tagLE_of_not mm m hmm⟩
          · exact ⟨m, by simp [maxTag, hmm], tagLE_refl m⟩
      obtain ⟨m0, he, hle⟩ := h0
      rw [he] at h
      exact tagLE_trans m m0 n hle (foldl_maxTag_seed l m0 n h)
    · exact ih (maxTag acc a) n h m hm2

theorem maxTag_rightComm (z : Option String) (x y : String) :
    maxTag (maxTag z x) y = maxTag (maxTag z y) x := by
  have swap : ∀ u v : String, (if tagLE u v then some v else some u) =
      (if tagLE v u then some u else some v) := by
    intro u v
    cases huv : tagLE u v <;> cases hvu : tagLE v u
    · simp [tagLE_of_not u v huv] at hvu
    · simp [huv, hvu]
    · simp [huv, hvu]
    · simp [huv, hvu, tagLE_antisymm u v huv hvu]
  cases z with
  | none =>
    simp only [maxTag]
    exact swap x y
  | some m =>
    simp only [maxTag]
    cases hmx : tagLE m x <;> cases hmy : tagLE m y
    · simp only [Bool.false_eq_true, if_false, maxTag, hmx, hmy]
    · simp only [Bool.false_eq_true, if_false, if_true, maxTag, hmx, hmy]
      cases hyx : tagLE y x
      · simp
      · have : tagLE m x = true := tagLE_trans m y x hmy hyx
        simp [this] at hmx
    · simp only [Bool.false_eq_true, if_false, if_true, maxTag, hmx, hmy]
      cases hxy : tagLE x y
      · simp
      · have : tagLE m y = true := tagLE_trans m x y hmx hxy
        simp [this] at hmy
    · simp only [if_true, maxTag, hmx, hmy]
      exact swap x y

theorem selectTag_mem (tags : List (String × String)) (c n : String)
    (h : selectTag tags c = some n) : (n, c) ∈ tags := by
  unfold selectTag at h
  rcases foldl_maxTag_mem _ _ _ h with hm | he
  · obtain ⟨p, hp, hfst⟩ := List.mem_map.mp hm
    obtain ⟨hpt, hpc⟩ := List.mem_filter.mp hp
    have hc : p.2 = c := by simpa using hpc
    obtain ⟨p1, p2⟩ := p
    simp only at hfst hc
    subst hfst
    subst hc
    exact hpt
  · cases he

theorem selectTag_max (tags : List (String × String)) (c n : String)
    (h : selectTag tags c = some n) : ∀ m, (m, c) ∈ tags → tagLE m n = true := by
  intro m hm
  apply foldl_maxTag_dom _ _ _ h
  exact List.mem_map.mpr ⟨(m, c), List.mem_filter.mpr ⟨hm, by simp⟩, rfl⟩

theorem selectTag_isSome_of_mem (tags : List (String × String)) (m c : String)
    (hm : (m, c) ∈ tags) : (selectTag tags c).isSome = true := by
  unfold selectTag
  have hmem : m ∈ (tags.filter (fun p => p.2 == c)).map Prod.fst :=
    List.mem_map.mpr ⟨(m, c), List.mem_filter.mpr ⟨hm, by simp⟩, rfl⟩
  cases hl : (tags.filter (fun p => p.2 == c)).map Prod.fst with
  | nil =>
    rw [hl] at hmem
    cases hmem
  | cons a l2 =>
    simp only [List.foldl_cons, maxTag]
    obtain ⟨n, hn⟩ := foldl_maxTag_some l2 a
    simp [hn]

theorem selectTag_perm (tags tags2 : List (String × String)) (hp : tags.Perm tags2)
    (c : String) : selectTag tags c = selectTag tags2 c := by
  unfold selectTag
  exact ((hp.filter _).map _).foldl_eq' (fun x _ y _ z => maxTag_rightComm z x y) none

/-! ### Characterization of the semantic-version grammar -/

/-- The admissible remainders after the three numeric components. -/
def restOK (rest : List Char) : Prop :=
  rest = [] ∨ (∃ t, rest = '-' :: t) ∨ (∃ t, rest = '+' :: t)

theorem takeDigits_cons_false (c : Char) (cs : List Char) (hc : c.isDigit = false) :
    takeDigits (c :: cs) = ([], c :: cs) := by
  simp [takeDigits, hc]

theorem takeDigits_cons_true (c : Char) (cs : List Char) (hc : c.isDigit = true) :
    takeDigits (c :: cs) = (c :: (takeDigits cs).1, (takeDigits cs).2) := by
  simp [takeDigits, hc]

theorem takeDigits_append (d r : List Char) (hd : ∀ c ∈ d, c.isDigit = true)
    (hr : ∀ c, r.head? = some c → c.isDigit = false) :
    takeDigits (d ++ r) = (d, r) := by
  induction d with
  | nil =>
    cases r with
    | nil => rfl
    | cons c cs => simpa using takeDigits_cons_false c cs (hr c rfl)
  | cons c cs ih =>
    have hc := hd c (List.mem_cons_self _ _)
    rw [List.cons_append, takeDigits_cons_true c _ hc,
      ih (fun x hx => hd x (List.mem_cons_of_mem _ hx))]

theorem takeDigits_spec (cs : List Char) :
    cs = (takeDigits cs).1 ++ (takeDigits cs).2 ∧
      (∀ c ∈ (takeDigits cs).1, c.isDigit = true) ∧
      (∀ c, (takeDigits cs).2.head? = some c → c.isDigit = false) := by
  induction cs with
  | nil => exact ⟨rfl, by simp [takeDigits], by simp [takeDigits]⟩
  | cons c cs ih =>
    obtain ⟨ih1, ih2, ih3⟩ := ih
    cases hc : c.isDigit
    · rw [takeDigits_cons_false c cs hc]
      refine ⟨rfl, by simp, ?_⟩
      intro x hx
      simp only [List.head?_cons, Option.some.injEq] at hx
      subst hx
      exact hc
    · rw [takeDigits_cons_true c cs hc]
      refine ⟨by simpa using ih1, ?_, ih3⟩
      intro x hx
      rcases List.mem_cons.mp hx with rfl | hx2
      · exact hc
      · exact ih2 x hx2

theorem expectNat_append (d r : List Char) (hne : d ≠ [])
    (hd : ∀ c ∈ d, c.isDigit = true) (hr : ∀ c, r.head? = some c → c.isDigit = false) :
    expectNat (d ++ r) = some (digitsToNat d, r) := by
  unfold expectNat
  rw [takeDigits_append d r hd hr]
  cases d with
  | nil => exact absurd rfl hne
  | cons a t => rfl

theorem expectNat_spec (cs : List Char) (n : Nat) (r : List Char)
    (h : expectNat cs = some (n, r)) :
    ∃ d, d ≠ [] ∧ (∀ c ∈ d, c.isDigit = true) ∧ cs = d ++ r ∧ n = digitsToNat d ∧
      (∀ c, r.head? = some c → c.isDigit = false) := by
  obtain ⟨hsp, hdig, hhd⟩ := takeDigits_spec cs
  unfold expectNat at h
  cases htd : takeDigits cs with
  | mk d r0 =>
    rw [htd] at h hsp hdig hhd
    cases d with
    | nil => cases h
    | cons a t =>
      simp only [Option.some.injEq, Prod.mk.injEq] at h
      obtain ⟨hn, hr0⟩ := h
      subst hr0
      exact ⟨a :: t, by simp, hdig, hsp, hn.symm, hhd⟩

theorem expectDot_spec (r1 r2 : List Char) (h : expectDot r1 = some r2) :
    r1 = '.' :: r2 := by
  unfold expectDot at h
  split at h
  · cases h
    rfl
  · cases h

theorem checkRest_spec (n1 n2 n3 : Nat) (r : List Char) (p : SemVer)
    (h : checkRest n1 n2 n3 r = some p) :
    p = ⟨false, n1, n2, n3, r⟩ ∧ restOK r := by
  unfold checkRest at h
  split at h
  · cases h
    exact ⟨rfl, Or.inl rfl⟩
  · cases h
    exact ⟨rfl, Or.inr (Or.inl ⟨_, rfl⟩)⟩
  · cases h
    exact ⟨rfl, Or.inr (Or.inr ⟨_, rfl⟩)⟩
  · cases h

theorem checkRest_build (n1 n2 n3 : Nat) (r : List Char) (hr : restOK r) :
    checkRest n1 n2 n3 r = some ⟨false, n1, n2, n3, r⟩ := by
  rcases hr with rfl | ⟨t, rfl⟩ | ⟨t, rfl⟩ <;> rfl

theorem restOK_head (rest : List Char) (hr : restOK rest) :
    ∀ c, rest.head? = some c → c.isDigit = false := by
  rcases hr with rfl | ⟨t, rfl⟩ | ⟨t, rfl⟩
  · intro c hc
    cases hc
  · intro c hc
    simp only [List.head?_cons, Option.some.injEq] at hc
    subst hc
    decide
  · intro c hc
    simp only [List.head?_cons, Option.some.injEq] at hc
    subst hc
    decide

theorem parseCore_build (d1 d2 d3 rest : List Char)
    (h1 : d1 ≠ []) (h2 : d2 ≠ []) (h3 : d3 ≠ [])
    (hd1 : ∀ c ∈ d1, c.isDigit = true) (hd2 : ∀ c ∈ d2, c.isDigit = true)
    (hd3 : ∀ c ∈ d3, c.isDigit = true) (hr : restOK rest) :
    parseCore (d1 ++ '.' :: (d2 ++ '.' :: (d3 ++ rest))) =
      some ⟨false, digitsToNat d1, digitsToNat d2, digitsToNat d3, rest⟩ := by
  have he1 : expectNat (d1 ++ '.' :: (d2 ++ '.' :: (d3 ++ rest))) =
      some (digitsToNat d1, '.' :: (d2 ++ '.' :: (d3 ++ rest))) :=
    expectNat_append d1 _ h1 hd1 (by
      intro c hc
      simp only [List.head?_cons, Option.some.injEq] at hc
      subst hc
      decide)
  have he2 : expectNat (d2 ++ '.' :: (d3 ++ rest)) =
      some (digitsToNat d2, '.' :: (d3 ++ rest)) :=
    expectNat_append d2 _ h2 hd2 (by
      intro c hc
      simp only [List.head?_cons, Option.some.injEq] at hc
      subst hc
      decide)
  have he3 : expectNat (d3 ++ rest) = some (digitsToNat d3, rest) :=
    expectNat_append d3 rest h3 hd3 (restOK_head rest hr)
  simp only [parseCore, he1, he2, he3, expectDot]
  exact checkRest_build _ _ _ rest hr

theorem parseCore_decomp (cs : List Char) (p : SemVer) (h : parseCore cs = some p) :
    ∃ d1 d2 d3, d1 ≠ [] ∧ d2 ≠ [] ∧ d3 ≠ [] ∧
      (∀ c ∈ d1, c.isDigit = true) ∧ (∀ c ∈ d2, c.isDigit = true) ∧
      (∀ c ∈ d3, c.isDigit = true) ∧
      cs = d1 ++ '.' :: (d2 ++ '.' :: (d3 ++ p.rest)) ∧ restOK p.rest ∧
      p.hasV = false ∧ p.major = digitsToNat d1 ∧ p.minor = digitsToNat d2 ∧
      p.patch = digitsToNat d3 := by
  unfold parseCore at h
  split at h
  · cases h
  rename_i n1 r1 he1
  split at h
  · cases h
  rename_i r2 he2
  split at h
  · cases h
  rename_i n2 r3 he3
  split at h
  · cases h
  rename_i r4 he4
  split at h
  · cases h
  rename_i n3 r5 he5
  obtain ⟨d1, hne1, hdig1, heq1, hn1, _⟩ := expectNat_spec _ _ _ he1
  obtain ⟨d2, hne2, hdig2, heq2, hn2, _⟩ := expectNat_spec _ _ _ he3
  obtain ⟨d3, hne3, hdig3, heq3, hn3, _⟩ := expectNat_spec _ _ _ he5
  obtain ⟨hp, hrest⟩ := checkRest_spec _ _ _ _ _ h
  subst hp
  refine ⟨d1, d2, d3, hne1, hne2, hne3, hdig1, hdig2, hdig3, ?_,
    hrest, rfl, hn1, hn2, hn3⟩
  rw [heq1, expectDot_spec _ _ he2, heq2, expectDot_spec _ _ he4, heq3]

theorem parseCore_append (cs ext : List Char) (p : SemVer) (h : parseCore cs = some p)
    (hext : ∃ t, ext = '-' :: t) :
    parseCore (cs ++ ext) = some { p with rest := p.rest ++ ext } := by
  obtain ⟨d1, d2, d3, hne1, hne2, hne3, hdig1, hdig2, hdig3, heq, hrest, hv, hmj,
    hmn, hpt⟩ := parseCore_decomp cs p h
  obtain ⟨te, rfl⟩ := hext
  have hrest2 : restOK (p.rest ++ '-' :: te) := by
    rcases hrest with hre | ⟨t, hre⟩ | ⟨t, hre⟩ <;> rw [hre]
    · exact Or.inr (Or.inl ⟨te, rfl⟩)
    · exact Or.inr (Or.inl ⟨t ++ '-' :: te, rfl⟩)
    · exact Or.inr (Or.inr ⟨t ++ '-' :: te, rfl⟩)
  have hsplit : cs ++ '-' :: te = d1 ++ '.' :: (d2 ++ '.' :: (d3 ++ (p.rest ++ '-' :: te))) := by
    rw [heq]
    simp [List.append_assoc]
  rw [hsplit, parseCore_build d1 d2 d3 _ hne1 hne2 hne3 hdig1 hdig2 hdig3 hrest2]
  obtain ⟨pv, pm1, pm2, pm3, pr⟩ := p
  simp only at hv hmj hmn hpt
  subst hv
  subst hmj
  subst hmn
  subst hpt
  rfl

/-! ### Well-formedness of composed version strings -/

theorem toList_append (a b : String) : (a ++ b).toList = a.toList ++ b.toList :=
  rfl

theorem parseCore_nil : parseCore [] = none :=
  rfl

theorem parseSemVerChars_append (cs ext : List Char) (p : SemVer)
    (h : parseSemVerChars cs = some p) (hext : ∃ t, ext = '-' :: t) :
    (parseSemVerChars (cs ++ ext)).isSome = true := by
  unfold parseSemVerChars at h ⊢
  by_cases hv : cs.head? = some 'v'
  · rw [if_pos hv] at h
    obtain ⟨q, hq, _⟩ := Option.map_eq_some'.mp h
    cases cs with
    | nil => cases hv
    | cons c t =>
      simp only [List.head?_cons, Option.some.injEq] at hv
      subst hv
      have harr : ('v' :: t) ++ ext = 'v' :: (t ++ ext) := rfl
      rw [harr]
      rw [if_pos (by rfl : ('v' :: (t ++ ext)).head? = some 'v')]
      have ht : ('v' :: t).tail = t := rfl
      rw [ht] at hq
      rw [show ('v' :: (t ++ ext)).tail = t ++ ext from rfl]
      rw [parseCore_append t ext q hq hext]
      rfl
  · rw [if_neg hv] at h
    have hne : cs ≠ [] := by
      intro he
      rw [he, parseCore_nil] at h
      cases h
    have hv2 : ¬((cs ++ ext).head? = some 'v') := by
      cases cs with
      | nil => exact absurd rfl hne
      | cons c t => simpa using hv
    rw [if_neg hv2, parseCore_append cs ext p h hext]
    rfl

theorem dash_append_toList (y : String) :
    (("-" : String) ++ y).toList = '-' :: y.toList :=
  rfl

/-- The dash-introduced tail appended to the base version for a positive
distance starts with a dash, whatever the distance and hash. -/
theorem versionTail_shape (distance : Nat) (headHash : String) :
    ("-" ++ toString distance ++ ".g" ++ shortHash headHash).toList =
      '-' :: (toString distance ++ ".g" ++ shortHash headHash).toList := by
  rw [show ("-" ++ toString distance ++ ".g" ++ shortHash headHash) =
    "-" ++ (toString distance ++ ".g" ++ shortHash headHash) from by
      rw [String.append_assoc, String.append_assoc,
        ← String.append_assoc (toString distance) ".g" (shortHash headHash)]]
  exact dash_append_toList _

theorem appended_version_wellFormed (t : String) (distance : Nat) (headHash : String)
    (p : SemVer) (hp : parseSemVer t = some p) :
    semverLoose (t ++ "-" ++ toString distance ++ ".g" ++ shortHash headHash) = true := by
  unfold semverLoose
  have hre : t ++ "-" ++ toString distance ++ ".g" ++ shortHash headHash =
      t ++ ("-" ++ toString distance ++ ".g" ++ shortHash headHash) := by
    simp [String.append_assoc]
  rw [hre, toList_append, versionTail_shape]
  exact parseSemVerChars_append t.toList _ p hp ⟨_, rfl⟩

/-! ### Claim theorems for the Version Composer -/

/-- C1: when the tag name is present and parses as a semantic version
(optional leading letter v, any remainder kept verbatim), GenerateVersion
returns the tag name unchanged at distance zero, and at positive distance
appends dash distance dot g shorthash, the short hash being the first
seven characters of the head hash. -/
theorem C1_generateVersion_tagged (t : String) (d : Nat) (h : String) (now : Nat)
    (o : GenerateVersionOptions) (hp : (parseSemVer t).isSome = true) :
    generateVersion (some t) d h now o =
      .ok (if d = 0 then t else t ++ "-" ++ toString d ++ ".g" ++ h.take 7) := by
  obtain ⟨p, hpp⟩ := Option.isSome_iff_exists.mp hp
  unfold generateVersion
  dsimp only
  rw [hpp]
  by_cases hd : d = 0
  · rw [if_pos hd, if_pos hd]
  · rw [if_neg hd, if_neg hd]
    rfl

/-- Witness for C1 at the spec's example: tag v1.0.0, distance one, hash
beginning 21e4385. -/
theorem C1_witness :
    (parseSemVer "v1.0.0").isSome = true ∧
      generateVersion (some "v1.0.0") 1 "21e4385abc" 0 ⟨""⟩ =
        .ok (if 1 = 0 then "v1.0.0"
          else "v1.0.0" ++ "-" ++ toString 1 ++ ".g" ++ "21e4385abc".take 7) :=
  ⟨by decide, C1_generateVersion_tagged "v1.0.0" 1 "21e4385abc" 0 ⟨""⟩ (by decide)⟩

/-- C5: with an absent tag name the fallback tag name is substituted as
the base version (v0.0.0 when the caller supplied none) and the distance
and short-hash tail is appended unconditionally, so an untagged
repository HEAD N commits deep yields v0.0.0 dash N dot g shorthash. -/
theorem C5_generateVersion_fallback (d : Nat) (h : String) (now : Nat) (fb : String)
    (hp : (parseSemVer (if fb = "" then "v0.0.0" else fb)).isSome = true) :
    generateVersion none d h now ⟨fb⟩ =
      .ok ((if fb = "" then "v0.0.0" else fb) ++ "-" ++ toString d ++ ".g" ++ h.take 7) := by
  obtain ⟨p, hpp⟩ := Option.isSome_iff_exists.mp hp
  unfold generateVersion
  dsimp only
  rw [hpp]
  rfl

/-- Witness for C5: the untagged default-fallback case at distance 3. -/
theorem C5_witness :
    (parseSemVer (if "" = "" then "v0.0.0" else "")).isSome = true ∧
      generateVersion none 3 "abcdef01234" 0 ⟨""⟩ =
        .ok ((if "" = "" then "v0.0.0" else "") ++ "-" ++ toString 3 ++ ".g" ++
          "abcdef01234".take 7) :=
  ⟨by decide, C5_generateVersion_fallback 3 "abcdef01234" 0 "" (by decide)⟩

/-- C6 (amended): GenerateVersion fails with the version-format error
exactly when the tag name is present and does not parse as
MAJOR.MINOR.PATCH with an optional leading letter v, and fails with the
invalid-options error exactly when the tag name is absent and the
defaulted fallback tag name does not so parse; there are no other
failures. -/
theorem C6_generateVersion_error_characterization (t : Option String) (d : Nat)
    (h : String) (now : Nat) (fb : String) :
    (generateVersion t d h now ⟨fb⟩ = .error .versionFormat ↔
      ∃ s, t = some s ∧ parseSemVer s = none) ∧
    (generateVersion t d h now ⟨fb⟩ = .error .invalidOptions ↔
      t = none ∧ parseSemVer (if fb = "" then "v0.0.0" else fb) = none) := by
  cases t with
  | some s =>
    cases hp : parseSemVer s with
    | some p =>
      by_cases hd : d = 0 <;> simp [generateVersion, hp, hd]
    | none => simp [generateVersion, hp]
  | none =>
    cases hp : parseSemVer (if fb = "" then "v0.0.0" else fb) with
    | some p => simp [generateVersion, hp]
    | none => simp [generateVersion, hp]

/-- Counterexample to C6 as stated: with an absent tag name the effective
base tag is the substituted fallback release-one, which cannot be parsed,
yet the call fails with the invalid-options error rather than the
version-format error the claim demands for every unparseable effective
base. -/
theorem C6_counterexample :
    generateVersion none 1 "abcdefg" 0 ⟨"release-one"⟩ =
        .error .invalidOptions ∧
      VersionError.invalidOptions ≠ VersionError.versionFormat :=
  ⟨rfl, by decide⟩

/-- C7 (amended): every string returned by a successful GenerateVersion
call is well formed in the claim's output grammar amended with an
optional leading letter v: dot-separated non-negative integers for
MAJOR.MINOR.PATCH, then an optional dash-introduced pre-release or
plus-introduced build-metadata remainder. -/
theorem C7_output_wellFormed (t : Option String) (d : Nat) (h : String) (now : Nat)
    (o : GenerateVersionOptions) (s : String)
    (hok : generateVersion t d h now o = .ok s) : semverLoose s = true := by
  cases t with
  | some tn =>
    cases hp : parseSemVer tn with
    | none => simp [generateVersion, hp] at hok
    | some p =>
      by_cases hd : d = 0
      · simp [generateVersion, hp, hd] at hok
        subst hok
        unfold semverLoose
        unfold parseSemVer at hp
        exact Option.isSome_iff_exists.mpr ⟨p, hp⟩
      · simp [generateVersion, hp, hd] at hok
        subst hok
        exact appended_version_wellFormed tn d h p hp
  | none =>
    cases hp : parseSemVer (if o.fallbackTagName = "" then "v0.0.0" else o.fallbackTagName) with
    | none => simp [generateVersion, hp] at hok
    | some p =>
      simp [generateVersion, hp] at hok
      subst hok
      exact appended_version_wellFormed _ d h p hp

/-- Witness for C7: a tagged call at distance two and its well-formed
output. -/
theorem C7_witness :
    generateVersion (some "v1.2.3") 2 "deadbeef99" 0 ⟨""⟩ =
        .ok ("v1.2.3" ++ "-" ++ toString 2 ++ ".g" ++ shortHash "deadbeef99") ∧
      semverLoose ("v1.2.3" ++ "-" ++ toString 2 ++ ".g" ++ shortHash "deadbeef99") = true :=
  ⟨rfl, C7_output_wellFormed (some "v1.2.3") 2 "deadbeef99" 0 ⟨""⟩ _ rfl⟩

/-- Counterexample to C7 as stated: the successful output v1.0.0 (its tag
returned unchanged at distance zero) is not in the claim's own output
grammar, whose first component must be a bare non-negative integer. -/
theorem C7_counterexample :
    generateVersion (some "v1.0.0") 0 "21e4385ab" 0 ⟨""⟩ = .ok "v1.0.0" ∧
      semverStrict "v1.0.0" = false :=
  ⟨rfl, by decide⟩

/-- C8: GenerateVersion never inspects its timestamp argument: two calls
differing only in the wall-clock instant return identical results, so no
wall-clock time leaks into the rendered string. -/
theorem C8_time_independent (t : Option String) (d : Nat) (h : String)
    (n1 n2 : Nat) (o : GenerateVersionOptions) :
    generateVersion t d h n1 o = generateVersion t d h n2 o :=
  rfl

/-! ### Reachability lemmas for the breadth-first traversal -/

theorem reachN_zero (cs : List (String × List String)) (a b : String) :
    ReachN cs a b 0 ↔ b = a := by
  constructor
  · intro h
    cases h
    rfl
  · intro h
    subst h
    exact ReachN.refl b

theorem reachN_snoc (cs : List (String × List String)) {a b c : String} {ps : List String}
    {n : Nat} (h : ReachN cs a b n) (hl : lookupParents cs b = some ps) (hc : c ∈ ps) :
    ReachN cs a c (n + 1) := by
  induction h with
  | refl x => exact ReachN.step hl hc (ReachN.refl c)
  | step hl2 hm2 _h2 ih => exact ReachN.step hl2 hm2 (ih hl)

theorem reachN_last (cs : List (String × List String)) {a c : String} {n : Nat}
    (h : ReachN cs a c (n + 1)) :
    ∃ b ps, ReachN cs a b n ∧ lookupParents cs b = some ps ∧ c ∈ ps := by
  induction n generalizing a with
  | zero =>
    cases h with
    | step hl hm h2 =>
      rw [reachN_zero] at h2
      subst h2
      exact ⟨a, _, ReachN.refl a, hl, hm⟩
  | succ m ih =>
    cases h with
    | step hl hm h2 =>
      obtain ⟨b2, ps2, hr, hl2, hm2⟩ := ih h2
      exact ⟨b2, ps2, ReachN.step hl hm hr, hl2, hm2⟩

theorem reachN_trans (cs : List (String × List String)) {a b c : String} {k j : Nat}
    (h1 : ReachN cs a b k) (h2 : ReachN cs b c j) : ReachN cs a c (k + j) := by
  induction h1 with
  | refl x => simpa using h2
  | @step a2 b2 c2 ps2 n2 hl hm _h ih =>
    have h3 := ReachN.step hl hm (ih h2)
    have h4 : n2 + j + 1 = n2 + 1 + j := by omega
    rwa [h4] at h3

/-- Classical existence of a minimum-length path when any path exists. -/
theorem exists_min_reach (cs : List (String × List String)) (a c : String)
    (h : ∃ n, ReachN cs a c n) :
    ∃ n, ReachN cs a c n ∧ ∀ i, ReachN cs a c i → n ≤ i := by
  classical
  refine ⟨Nat.find h, Nat.find_spec h, ?_⟩
  intro i hi
  exact Nat.find_min' h hi

theorem expandAll_isSome (cs : List (String × List String)) (frontier ps : List String)
    (h : expandAll cs frontier = some ps) :
    ∀ f ∈ frontier, (lookupParents cs f).isSome = true := by
  induction frontier generalizing ps with
  | nil =>
    intro f hf
    cases hf
  | cons a t ih =>
    intro f hf
    unfold expandAll at h
    cases hla : lookupParents cs a with
    | none => rw [hla] at h; cases h
    | some la =>
      rw [hla] at h
      cases het : expandAll cs t with
      | none => rw [het] at h; cases h
      | some pt =>
        rcases List.mem_cons.mp hf with rfl | hf2
        · simp [hla]
        · exact ih pt het f hf2

theorem expandAll_mem (cs : List (String × List String)) (frontier ps : List String)
    (h : expandAll cs frontier = some ps) :
    ∀ x, x ∈ ps ↔ ∃ f ∈ frontier, ∃ l, lookupParents cs f = some l ∧ x ∈ l := by
  induction frontier generalizing ps with
  | nil =>
    cases h
    simp
  | cons a t ih =>
    unfold expandAll at h
    cases hla : lookupParents cs a with
    | none => rw [hla] at h; cases h
    | some la =>
      rw [hla] at h
      cases het : expandAll cs t with
      | none => rw [het] at h; cases h
      | some pt =>
        rw [het] at h
        cases h
        intro x
        simp only [List.mem_append, ih pt het x, List.mem_cons]
        constructor
        · rintro (hx | ⟨f, hf, l, hl, hx⟩)
          · exact ⟨a, Or.inl rfl, la, hla, hx⟩
          · exact ⟨f, Or.inr hf, l, hl, hx⟩
        · rintro ⟨f, rfl | hf, l, hl, hx⟩
          · rw [hla] at hl
            cases hl
            exact Or.inl hx
          · exact Or.inr ⟨f, hf, l, hl, hx⟩

theorem lookup_isSome_mem (cs : List (String × List String)) (c : String)
    (h : (lookupParents cs c).isSome = true) : c ∈ cs.map Prod.fst := by
  unfold lookupParents at h
  cases hf : cs.find? (fun p => p.1 == c) with
  | none => rw [hf] at h; cases h
  | some p =>
    have hp := List.find?_some hf
    have hm := List.mem_of_find?_eq_some hf
    have : p.1 = c := by simpa using hp
    subst this
    exact List.mem_map.mpr ⟨p, hm, rfl⟩

/-! ### The breadth-first invariant and its preservation -/

theorem contains_iff_mem (l : List String) (a : String) : l.contains a = true ↔ a ∈ l := by
  simp [List.contains]

theorem bfsInv_init (cs : List (String × List String)) (tagOf : String → Option String)
    (head : String) : BfsInv cs tagOf head [] [head] 0 := by
  refine ⟨?_, ?_, List.nodup_nil, List.nodup_singleton head, ?_, ?_, by simp⟩
  · intro c
    simp
  · intro c
    simp only [List.mem_singleton]
    constructor
    · rintro rfl
      exact ⟨ReachN.refl _, fun n hn => absurd hn (Nat.not_lt_zero n)⟩
    · rintro ⟨h0, _⟩
      exact (reachN_zero cs _ _).mp h0
  · intro c n hn _hr
    exact absurd hn (Nat.not_lt_zero n)
  · intro c hc
    cases hc

theorem bfs_visited2_mem (cs : List (String × List String)) (tagOf : String → Option String)
    (head : String) (visited frontier : List String) (d : Nat)
    (inv : BfsInv cs tagOf head visited frontier d) :
    ∀ c, c ∈ visited ++ frontier ↔ ∃ n, n < d + 1 ∧ ReachN cs head c n := by
  intro c
  rw [List.mem_append]
  constructor
  · rintro (hv | hf)
    · obtain ⟨n, hn, hr⟩ := (inv.visMem c).mp hv
      exact ⟨n, by omega, hr⟩
    · obtain ⟨hr, _⟩ := (inv.frMem c).mp hf
      exact ⟨d, by omega, hr⟩
  · rintro ⟨n, hn, hr⟩
    by_cases hex : ∃ i, i < d ∧ ReachN cs head c i
    · exact Or.inl ((inv.visMem c).mpr hex)
    · push_neg at hex
      have hnd : n = d := by
        by_contra hne
        exact hex n (by omega) hr
      subst hnd
      exact Or.inr ((inv.frMem c).mpr ⟨hr, fun i hi hri => hex i hi hri⟩)

theorem bfs_visited2_nodup (cs : List (String × List String)) (tagOf : String → Option String)
    (head : String) (visited frontier : List String) (d : Nat)
    (inv : BfsInv cs tagOf head visited frontier d) :
    (visited ++ frontier).Nodup := by
  refine inv.visNodup.append inv.frNodup ?_
  intro c hcv hcf
  obtain ⟨n, hn, hr⟩ := (inv.visMem c).mp hcv
  obtain ⟨_, hmin⟩ := (inv.frMem c).mp hcf
  exact hmin n hn hr

theorem bfs_noTag2 (cs : List (String × List String)) (tagOf : String → Option String)
    (head : String) (visited frontier : List String) (d : Nat)
    (inv : BfsInv cs tagOf head visited frontier d)
    (hfind : frontier.find? (fun c => (tagOf c).isSome) = none) :
    ∀ c n, n < d + 1 → ReachN cs head c n → tagOf c = none := by
  intro c n hn hr
  by_cases hex : ∃ i, i < d ∧ ReachN cs head c i
  · obtain ⟨i, hi, hri⟩ := hex
    exact inv.noTag c i hi hri
  · push_neg at hex
    have hnd : n = d := by
      by_contra hne
      exact hex n (by omega) hr
    subst hnd
    have hcf : c ∈ frontier := (inv.frMem c).mpr ⟨hr, hex⟩
    have hns := List.find?_eq_none.mp hfind c hcf
    exact Option.not_isSome_iff_eq_none.mp hns

theorem bfs_next_mem (cs : List (String × List String)) (tagOf : String → Option String)
    (head : String) (visited frontier : List String) (d : Nat)
    (inv : BfsInv cs tagOf head visited frontier d)
    (ps : List String) (hexp : expandAll cs frontier = some ps) :
    ∀ c, c ∈ (ps.filter (fun p => !((visited ++ frontier).contains p))).dedup ↔
      (ReachN cs head c (d + 1) ∧ ∀ n, n < d + 1 → ¬ ReachN cs head c n) := by
  intro c
  have hvm := bfs_visited2_mem cs tagOf head visited frontier d inv
  constructor
  · intro hc
    have hc2 := List.mem_dedup.mp hc
    obtain ⟨hps, hnc⟩ := List.mem_filter.mp hc2
    have hnotmem : c ∉ visited ++ frontier := by
      intro hmem
      have h1 := (contains_iff_mem _ c).mpr hmem
      rw [h1] at hnc
      cases hnc
    obtain ⟨f, hf, l, hl, hcl⟩ := (expandAll_mem cs frontier ps hexp c).mp hps
    obtain ⟨hrf, _hminf⟩ := (inv.frMem f).mp hf
    have hreach : ReachN cs head c (d + 1) := reachN_snoc cs hrf hl hcl
    refine ⟨hreach, ?_⟩
    intro n hn hr
    exact hnotmem ((hvm c).mpr ⟨n, hn, hr⟩)
  · rintro ⟨hreach, hmin⟩
    obtain ⟨b, ps2, hrb, hlb, hcb⟩ := reachN_last cs hreach
    have hbmin : ∀ i, i < d → ¬ ReachN cs head b i := by
      intro i hi hri
      exact hmin (i + 1) (by omega) (reachN_snoc cs hri hlb hcb)
    have hbf : b ∈ frontier := (inv.frMem b).mpr ⟨hrb, hbmin⟩
    have hps : c ∈ ps := (expandAll_mem cs frontier ps hexp c).mpr ⟨b, hbf, ps2, hlb, hcb⟩
    have hnotmem : c ∉ visited ++ frontier := by
      intro hmem
      obtain ⟨n, hn, hr⟩ := (hvm c).mp hmem
      exact hmin n hn hr
    apply List.mem_dedup.mpr
    apply List.mem_filter.mpr
    refine ⟨hps, ?_⟩
    cases hcc : (visited ++ frontier).contains c
    · rfl
    · exact absurd ((contains_iff_mem _ c).mp hcc) hnotmem

theorem bfsInv_step (cs : List (String × List String)) (tagOf : String → Option String)
    (head : String) (visited frontier : List String) (d : Nat)
    (inv : BfsInv cs tagOf head visited frontier d)
    (hfind : frontier.find? (fun c => (tagOf c).isSome) = none)
    (ps : List String) (hexp : expandAll cs frontier = some ps)
    (hne : (ps.filter (fun p => !((visited ++ frontier).contains p))).dedup ≠ []) :
    BfsInv cs tagOf head (visited ++ frontier)
      ((ps.filter (fun p => !((visited ++ frontier).contains p))).dedup) (d + 1) := by
  refine ⟨bfs_visited2_mem cs tagOf head visited frontier d inv,
    bfs_next_mem cs tagOf head visited frontier d inv ps hexp,
    bfs_visited2_nodup cs tagOf head visited frontier d inv,
    List.nodup_dedup _,
    bfs_noTag2 cs tagOf head visited frontier d inv hfind,
    ?_, hne⟩
  intro c hc
  rcases List.mem_append.mp hc with hv | hf
  · exact inv.visKeys c hv
  · exact expandAll_isSome cs frontier ps hexp c hf

theorem bfs_exhausted (cs : List (String × List String)) (tagOf : String → Option String)
    (head : String) (visited frontier : List String) (d : Nat)
    (inv : BfsInv cs tagOf head visited frontier d)
    (ps : List String) (hexp : expandAll cs frontier = some ps)
    (hempty : (ps.filter (fun p => !((visited ++ frontier).contains p))).dedup = []) :
    ∀ c n, ReachN cs head c n → ∃ m, m ≤ d ∧ ReachN cs head c m := by
  intro c n
  induction n using Nat.strong_induction_on generalizing c with
  | _ n ih =>
    intro hr
    by_cases hnd : n ≤ d
    · exact ⟨n, hnd, hr⟩
    · cases n with
      | zero => omega
      | succ k =>
        obtain ⟨b, ps2, hrb, hlb, hcb⟩ := reachN_last cs hr
        obtain ⟨m, hm, hrbm⟩ := ih k (by omega) b hrb
        have hrc : ReachN cs head c (m + 1) := reachN_snoc cs hrbm hlb hcb
        by_cases hmd : m + 1 ≤ d
        · exact ⟨m + 1, hmd, hrc⟩
        · obtain rfl : m = d := by omega
          obtain ⟨nc, hncr, hncmin⟩ := exists_min_reach cs head c ⟨m + 1, hrc⟩
          have hncle : nc ≤ m + 1 := hncmin (m + 1) hrc
          by_cases hncd : nc ≤ m
          · exact ⟨nc, by omega, hncr⟩
          · obtain rfl : nc = m + 1 := by omega
            exfalso
            have hcnext :
                c ∈ (ps.filter (fun p => !((visited ++ frontier).contains p))).dedup := by
              apply (bfs_next_mem cs tagOf head visited frontier m inv ps hexp c).mpr
              refine ⟨hncr, ?_⟩
              intro i hi hri
              have := hncmin i hri
              omega
            rw [hempty] at hcnext
            cases hcnext

theorem bfs_exhausted_outcome (cs : List (String × List String))
    (tagOf : String → Option String) (head : String) (visited frontier : List String)
    (d : Nat) (inv : BfsInv cs tagOf head visited frontier d)
    (hfind : frontier.find? (fun c => (tagOf c).isSome) = none)
    (ps : List String) (hexp : expandAll cs frontier = some ps)
    (hempty : (ps.filter (fun p => !((visited ++ frontier).contains p))).dedup = []) :
    (∀ c n, ReachN cs head c n → tagOf c = none) ∧
      ((visited ++ frontier).Nodup ∧
        ∀ c, c ∈ visited ++ frontier ↔ ∃ n, ReachN cs head c n) := by
  have hbound := bfs_exhausted cs tagOf head visited frontier d inv ps hexp hempty
  refine ⟨?_, bfs_visited2_nodup cs tagOf head visited frontier d inv, ?_⟩
  · intro c n hr
    obtain ⟨m, hm, hrm⟩ := hbound c n hr
    exact bfs_noTag2 cs tagOf head visited frontier d inv hfind c m (by omega) hrm
  · intro c
    constructor
    · intro hc
      obtain ⟨n, _, hr⟩ := (bfs_visited2_mem cs tagOf head visited frontier d inv c).mp hc
      exact ⟨n, hr⟩
    · rintro ⟨n, hr⟩
      obtain ⟨m, hm, hrm⟩ := hbound c n hr
      exact (bfs_visited2_mem cs tagOf head visited frontier d inv c).mpr ⟨m, by omega, hrm⟩

theorem bfsLoop_sound (cs : List (String × List String)) (tagOf : String → Option String)
    (head : String) :
    ∀ (fuel : Nat) (visited frontier : List String) (d : Nat),
      BfsInv cs tagOf head visited frontier d →
      cs.length + 2 ≤ fuel + visited.length →
      bfsOutcome cs tagOf head (bfsLoop cs tagOf fuel visited frontier d) := by
  intro fuel
  induction fuel with
  | zero =>
    intro visited frontier d inv hcount
    exfalso
    have hsub : visited ⊆ cs.map Prod.fst := by
      intro c hc
      exact lookup_isSome_mem cs c (inv.visKeys c hc)
    have hlen := (List.subperm_of_subset inv.visNodup hsub).length_le
    rw [List.length_map] at hlen
    omega
  | succ fuel ih =>
    intro visited frontier d inv hcount
    rw [bfsLoop]
    cases hfind : frontier.find? (fun c => (tagOf c).isSome) with
    | some c =>
      have hc : c ∈ frontier := List.mem_of_find?_eq_some hfind
      have htag : (tagOf c).isSome = true := by simpa using List.find?_some hfind
      obtain ⟨hreach, _hmin⟩ := (inv.frMem c).mp hc
      obtain ⟨t, ht⟩ := Option.isSome_iff_exists.mp htag
      dsimp only
      rw [ht]
      simp only [bfsOutcome]
      refine ⟨⟨c, hreach, ht⟩, ?_⟩
      intro c2 n hr2 htag2
      by_contra hlt
      push_neg at hlt
      have hnone := inv.noTag c2 n hlt hr2
      rw [hnone] at htag2
      cases htag2
    | none =>
      dsimp only
      cases hexp : expandAll cs frontier with
      | none => exact trivial
      | some ps =>
        dsimp only
        by_cases hemp :
            ((ps.filter (fun p => !((visited ++ frontier).contains p))).dedup).isEmpty = true
        · rw [if_pos hemp]
          simp only [bfsOutcome]
          have hempty : (ps.filter (fun p => !((visited ++ frontier).contains p))).dedup = [] := by
            simpa using hemp
          obtain ⟨hnotag, hnodup, hmem⟩ :=
            bfs_exhausted_outcome cs tagOf head visited frontier d inv hfind ps hexp hempty
          exact ⟨hnotag, visited ++ frontier, hnodup, hmem, rfl⟩
        · rw [if_neg hemp]
          have hne : (ps.filter (fun p => !((visited ++ frontier).contains p))).dedup ≠ [] := by
            intro he
            rw [he] at hemp
            exact hemp rfl
          have hfr1 : 1 ≤ frontier.length := by
            cases frontier with
            | nil => exact absurd rfl inv.frNonempty
            | cons a t => simp
          apply ih
          · exact bfsInv_step cs tagOf head visited frontier d inv hfind ps hexp hne
          · rw [List.length_append]
            omega

theorem describe_sound (r : Repo) (h : String) (tags : List (String × String))
    (res : DescribeResult) (hh : r.headId = some h) (ht : r.tagsList = some tags)
    (hok : describe r = .ok res) :
    res.headHash = h ∧
      bfsOutcome r.commits (selectTag tags) h (.ok (res.tagName, res.distance)) := by
  unfold describe at hok
  rw [hh, ht] at hok
  dsimp only at hok
  have hsound := bfsLoop_sound r.commits (selectTag tags) h (r.commits.length + 2) [] [h] 0
    (bfsInv_init _ _ _) (by simp)
  cases hbfs : bfsLoop r.commits (selectTag tags) (r.commits.length + 2) [] [h] 0 with
  | error e =>
    rw [hbfs] at hok
    cases hok
  | ok v =>
    obtain ⟨tn, dd⟩ := v
    rw [hbfs] at hok
    dsimp only at hok
    cases hok
    rw [hbfs] at hsound
    exact ⟨rfl, hsound⟩

/-! ### Claim theorems for the Tag Resolver -/

/-- C2: whenever Describe succeeds and reports a tag, the reported
distance is the length of a shortest parent-edge path from HEAD to a
commit carrying a tag: some commit at exactly that distance carries the
reported tag (the first tagged commit the breadth-first walk dequeues),
and no commit carrying any tag lies at a smaller distance, whatever
merges or divergent paths the graph contains. -/
theorem C2_describe_shortest (r : Repo) (h : String) (tags : List (String × String))
    (res : DescribeResult) (t : String) (hh : r.headId = some h)
    (ht : r.tagsList = some tags) (hok : describe r = .ok res)
    (htn : res.tagName = some t) :
    (∃ c, ReachN r.commits h c res.distance ∧ selectTag tags c = some t ∧ (t, c) ∈ tags) ∧
      (∀ c n m, ReachN r.commits h c n → (m, c) ∈ tags → res.distance ≤ n) := by
  obtain ⟨_, hout⟩ := describe_sound r h tags res hh ht hok
  rw [htn] at hout
  simp only [bfsOutcome] at hout
  obtain ⟨⟨c, hreach, hsel⟩, hmin⟩ := hout
  refine ⟨⟨c, hreach, hsel, selectTag_mem tags c t hsel⟩, ?_⟩
  intro c2 n m hr2 hm2
  exact hmin c2 n hr2 (selectTag_isSome_of_mem tags m c2 hm2)

/-- Witness for C2 on a merge diamond: one branch reaches the tagged
commit in two steps, the other in three; Describe reports distance 2. -/
theorem C2_witness :
    describe ⟨some "h", [("h", ["a", "b"]), ("a", ["t0"]), ("b", ["b2"]), ("b2", ["t0"]),
        ("t0", [])], some [("v1.0.0", "t0")]⟩ = .ok ⟨some "v1.0.0", 2, "h"⟩ ∧
      ((∃ c, ReachN [("h", ["a", "b"]), ("a", ["t0"]), ("b", ["b2"]), ("b2", ["t0"]),
          ("t0", [])] "h" c 2 ∧
          selectTag [("v1.0.0", "t0")] c = some "v1.0.0" ∧
          ("v1.0.0", c) ∈ [("v1.0.0", "t0")]) ∧
        (∀ c n m,
          ReachN [("h", ["a", "b"]), ("a", ["t0"]), ("b", ["b2"]), ("b2", ["t0"]),
            ("t0", [])] "h" c n →
          (m, c) ∈ [("v1.0.0", "t0")] → 2 ≤ n)) :=
  ⟨rfl, C2_describe_shortest
    ⟨some "h", [("h", ["a", "b"]), ("a", ["t0"]), ("b", ["b2"]), ("b2", ["t0"]),
      ("t0", [])], some [("v1.0.0", "t0")]⟩
    "h" [("v1.0.0", "t0")] ⟨some "v1.0.0", 2, "h"⟩ "v1.0.0" rfl rfl rfl rfl⟩

/-- C3: for every successful Describe, the distance is zero exactly when
a tag of the repository points at HEAD and the reported tag name is one
such tag; and when no tag name is reported, the distance is the number
of commits reachable from HEAD, each counted once. -/
theorem C3_describe_invariant (r : Repo) (h : String) (tags : List (String × String))
    (res : DescribeResult) (hh : r.headId = some h) (ht : r.tagsList = some tags)
    (hok : describe r = .ok res) :
    (res.distance = 0 ↔ ∃ t, res.tagName = some t ∧ (t, h) ∈ tags) ∧
      (res.tagName = none →
        ∃ l : List String, l.Nodup ∧ (∀ c, c ∈ l ↔ ∃ n, ReachN r.commits h c n) ∧
          res.distance = l.length) := by
  obtain ⟨_hh2, hout⟩ := describe_sound r h tags res hh ht hok
  cases htn : res.tagName with
  | none =>
    rw [htn] at hout
    simp only [bfsOutcome] at hout
    obtain ⟨hnotag, l, hnd, hmem, hlen⟩ := hout
    refine ⟨⟨?_, ?_⟩, fun _ => ⟨l, hnd, hmem, hlen⟩⟩
    · intro hd0
      exfalso
      have hhead : h ∈ l := (hmem h).mpr ⟨0, ReachN.refl h⟩
      rw [hd0] at hlen
      rw [List.eq_nil_of_length_eq_zero hlen.symm] at hhead
      cases hhead
    · rintro ⟨t, htt, _⟩
      cases htt
  | some t =>
    rw [htn] at hout
    simp only [bfsOutcome] at hout
    obtain ⟨⟨c, hreach, hsel⟩, hmin⟩ := hout
    refine ⟨⟨?_, ?_⟩, ?_⟩
    · intro hd0
      rw [hd0] at hreach
      have hch : c = h := (reachN_zero _ _ _).mp hreach
      subst hch
      exact ⟨t, rfl, selectTag_mem tags c t hsel⟩
    · rintro ⟨t2, _ht2, hmem2⟩
      have := hmin h 0 (ReachN.refl h) (selectTag_isSome_of_mem tags t2 h hmem2)
      omega
    · intro hnone
      cases hnone

/-- Witness for C3 on an untagged two-commit chain: no tag is reported
and the distance is the reachable-commit count 2. -/
theorem C3_witness :
    describe ⟨some "h", [("h", ["a"]), ("a", [])], some []⟩ = .ok ⟨none, 2, "h"⟩ ∧
      (((2 : Nat) = 0 ↔ ∃ t, (some t : Option String) = none ∧ (t, "h") ∈ ([] : List (String × String))) ∧
        ((none : Option String) = none →
          ∃ l : List String, l.Nodup ∧
            (∀ c, c ∈ l ↔ ∃ n, ReachN [("h", ["a"]), ("a", [])] "h" c n) ∧
            2 = l.length)) := by
  constructor
  · rfl
  · have := C3_describe_invariant ⟨some "h", [("h", ["a"]), ("a", [])], some []⟩ "h" []
      ⟨none, 2, "h"⟩ rfl rfl rfl
    constructor
    · constructor
      · intro h2
        cases h2
      · rintro ⟨t, htt, _⟩
        cases htt
    · intro _
      exact this.2 rfl

/-- C4: Describe is deterministic: it is a pure function of the snapshot,
the order of the tag enumeration is irrelevant (snapshots differing only
by a permutation of the tag list yield identical results, so equal-
distance ties resolve identically on every run), and when several tags
target the reported commit the reported name is the maximum under the
precedence order: highest parsed semantic version first, lexicographic
name as the tie-break. -/
theorem C4_describe_deterministic (r r2 : Repo) (tags tags2 : List (String × String))
    (hh : r2.headId = r.headId) (hc : r2.commits = r.commits)
    (ht : r.tagsList = some tags) (ht2 : r2.tagsList = some tags2)
    (hperm : tags.Perm tags2) :
    describe r = describe r2 ∧
      (∀ res t, describe r = .ok res → res.tagName = some t →
        ∃ c, (t, c) ∈ tags ∧ ∀ m, (m, c) ∈ tags → tagLE m t = true) := by
  constructor
  · unfold describe
    rw [hh, hc, ht, ht2]
    dsimp only
    rw [show selectTag tags = selectTag tags2 from funext (selectTag_perm tags tags2 hperm)]
  · intro res t hok htn
    cases hhid : r.headId with
    | none =>
      unfold describe at hok
      rw [hhid] at hok
      cases hok
    | some h =>
      obtain ⟨_, hout⟩ := describe_sound r h tags res hhid ht hok
      rw [htn] at hout
      simp only [bfsOutcome] at hout
      obtain ⟨⟨c, _hreach, hsel⟩, _hmin⟩ := hout
      exact ⟨c, selectTag_mem tags c t hsel, selectTag_max tags c t hsel⟩

/-- Witness for C4: a one-commit repository bearing two tags, enumerated
in both orders; v2.0.0 is selected as the higher semantic version. -/
theorem C4_witness :
    (describe ⟨some "h", [("h", [])], some [("v1.0.0", "h"), ("v2.0.0", "h")]⟩ =
        describe ⟨some "h", [("h", [])], some [("v2.0.0", "h"), ("v1.0.0", "h")]⟩) ∧
      (∀ res t,
        describe ⟨some "h", [("h", [])], some [("v1.0.0", "h"), ("v2.0.0", "h")]⟩ =
          .ok res →
        res.tagName = some t →
        ∃ c, (t, c) ∈ [("v1.0.0", "h"), ("v2.0.0", "h")] ∧
          ∀ m, (m, c) ∈ [("v1.0.0", "h"), ("v2.0.0", "h")] → tagLE m t = true) :=
  C4_describe_deterministic
    ⟨some "h", [("h", [])], some [("v1.0.0", "h"), ("v2.0.0", "h")]⟩
    ⟨some "h", [("h", [])], some [("v2.0.0", "h"), ("v1.0.0", "h")]⟩
    [("v1.0.0", "h"), ("v2.0.0", "h")] [("v2.0.0", "h"), ("v1.0.0", "h")]
    rfl rfl rfl rfl (List.Perm.swap ("v2.0.0", "h") ("v1.0.0", "h") [])

/-! ### Claim theorems for the data source Read flow -/

/-- C9: when Describe fails (and the preceding open and HEAD steps
succeeded), Read reports exactly the describe diagnostic and aborts the
whole query: GenerateVersion is never reached and no state, hence no
version string or summary, is produced. -/
theorem C9_read_describe_error (cfg : ReadConfig) (env : ReadEnv) (e : GitError)
    (hopen : env.openOk = true) (hhr : ∃ hr, env.headRef = some hr)
    (hdesc : describe env.repo = .error e) :
    read cfg env = .error (.gitDescribe e) ∧ ∀ d, read cfg env ≠ .ok d := by
  obtain ⟨hr, hhr⟩ := hhr
  have hred : read cfg env = .error (.gitDescribe e) := by
    unfold read
    rw [hopen, hhr, hdesc]
    rfl
  refine ⟨hred, ?_⟩
  intro d hcontra
  rw [hred] at hcontra
  cases hcontra

/-- Witness for C9: a repository whose commit arena is missing HEAD, so
the traversal fails its first parent lookup; Read surfaces the describe
error. -/
theorem C9_witness :
    (read ⟨"p", ""⟩ ⟨true, ⟨some "h", [], some []⟩, some ⟨"refs/heads/main", false, true⟩,
          0, true, true, true⟩ =
        .error (.gitDescribe .parentLookup)) ∧
      ∀ d, read ⟨"p", ""⟩ ⟨true, ⟨some "h", [], some []⟩,
          some ⟨"refs/heads/main", false, true⟩, 0, true, true, true⟩ ≠ .ok d :=
  C9_read_describe_error ⟨"p", ""⟩
    ⟨true, ⟨some "h", [], some []⟩, some ⟨"refs/heads/main", false, true⟩, 0, true, true, true⟩
    .parentLookup rfl ⟨⟨"refs/heads/main", false, true⟩, rfl⟩ rfl

/-- C10: on every successful Read, the summary equals tag dash distance
dash g shorthash (the first seven characters of the head hash) when
Describe reported a present non-empty tag name, and the bare shorthash
otherwise, with dash dirty appended exactly when the worktree is not
clean. -/
theorem C10_read_summary (cfg : ReadConfig) (env : ReadEnv) (d : ReadData)
    (hok : read cfg env = .ok d) :
    ∃ res, describe env.repo = .ok res ∧
      d.summary =
        (if env.isClean then
          (match res.tagName with
            | some t =>
              if t ≠ "" then t ++ "-" ++ toString res.distance ++ "-g" ++ res.headHash.take 7
              else res.headHash.take 7
            | none => res.headHash.take 7)
        else
          (match res.tagName with
            | some t =>
              if t ≠ "" then t ++ "-" ++ toString res.distance ++ "-g" ++ res.headHash.take 7
              else res.headHash.take 7
            | none => res.headHash.take 7) ++ "-dirty") := by
  unfold read at hok
  cases hopen : env.openOk with
  | false =>
    rw [hopen] at hok
    cases hok
  | true =>
    rw [hopen] at hok
    cases hhr : env.headRef with
    | none =>
      rw [hhr] at hok
      cases hok
    | some hr =>
      rw [hhr] at hok
      cases hdesc : describe env.repo with
      | error e =>
        rw [hdesc] at hok
        cases hok
      | ok res =>
        rw [hdesc] at hok
        dsimp only at hok
        refine ⟨res, rfl, ?_⟩
        cases hgen : generateVersion res.tagName res.distance res.headHash env.now
            ⟨if cfg.semverFallbackTag = "" then "v0.0.0" else cfg.semverFallbackTag⟩ with
        | error e =>
          rw [hgen] at hok
          cases hok
        | ok ver =>
          rw [hgen] at hok
          cases hwt : env.worktreeOk with
          | false =>
            rw [hwt] at hok
            cases hok
          | true =>
            rw [hwt] at hok
            cases hst : env.statusOk with
            | false =>
              rw [hst] at hok
              cases hok
            | true =>
              rw [hst] at hok
              cases hcl : env.isClean with
              | false =>
                cases hok
                rw [hcl]
                rfl
              | true =>
                cases hok
                rw [hcl]
                rfl

/-- Witness for C10: a clean repository one commit past tag v1.0.0 whose
summary is v1.0.0-1-g21e4385. -/
theorem C10_witness :
    read ⟨"p", ""⟩
        ⟨true, ⟨some "21e4385abcd", [("21e4385abcd", ["t0"]), ("t0", [])],
          some [("v1.0.0", "t0")]⟩, some ⟨"refs/heads/main", false, true⟩, 5, true, true,
          true⟩ =
      .ok ⟨"p", "p", "v1.0.0-1-g21e4385", "refs/heads/main", "v1.0.0-1.g21e4385",
        false, false, true⟩ ∧
    ∃ res, describe (⟨some "21e4385abcd", [("21e4385abcd", ["t0"]), ("t0", [])],
        some [("v1.0.0", "t0")]⟩ : Repo) = .ok res ∧
      "v1.0.0-1-g21e4385" =
        (if true then
          (match res.tagName with
            | some t =>
              if t ≠ "" then t ++ "-" ++ toString res.distance ++ "-g" ++ res.headHash.take 7
              else res.headHash.take 7
            | none => res.headHash.take 7)
        else
          (match res.tagName with
            | some t =>
              if t ≠ "" then t ++ "-" ++ toString res.distance ++ "-g" ++ res.headHash.take 7
              else res.headHash.take 7
            | none => res.headHash.take 7) ++ "-dirty") :=
  ⟨rfl, C10_read_summary ⟨"p", ""⟩
    ⟨true, ⟨some "21e4385abcd", [("21e4385abcd", ["t0"]), ("t0", [])],
      some [("v1.0.0", "t0")]⟩, some ⟨"refs/heads/main", false, true⟩, 5, true, true, true⟩
    ⟨"p", "p", "v1.0.0-1-g21e4385", "refs/heads/main", "v1.0.0-1.g21e4385",
      false, false, true⟩ rfl⟩

end GitSemver


